import Mathlib

/-!
Verification of the pygeode streaming-reduction core (reduce.py, climat.py,
var.py) against its specification.  Chunked lazy arrays are embedded as lists
of chunks (`List (List ℚ)`), whose concatenation (`List.flatten`) is the full
input series contributing to one output position.  Possibly-NaN floating
values are embedded as `Option ℚ` with `none` playing the role of NaN.
Functions named `...Getview` embed the `getview` method of the corresponding
`ReducedVar` subclass, restricted to one output position (the accumulation an
output bin receives from its contributing elements, chunk by chunk).
-/

namespace PyGeode

/-- Modelled from the spec: `npsum` (pygeode.tools, not under src/) sums a
chunk's elements along the reduced axes; for the elements contributing to one
output position this is the plain sum of the chunk. -/
def npsum (xs : List ℚ) : ℚ := xs.sum

/-- Embeds `SumVar.getview` (reduce.py): `out` starts at zero and each chunk
adds `npsum(indata)` into it. -/
def sumGetview (chunks : List (List ℚ)) : ℚ :=
  chunks.foldl (fun out c => out + npsum c) 0

/-- Embeds `MeanVar.getview` (reduce.py): the running sum of the chunks,
divided at the end by `self.N`, the full number of reduced elements. -/
def meanGetview (chunks : List (List ℚ)) (N : ℕ) : ℚ :=
  (chunks.foldl (fun out c => out + npsum c) 0) / (N : ℚ)

/-- Modelled from the spec: `npmin` (pygeode.tools) takes the minimum of a
chunk's elements; `⊤` stands for the float `inf` of an empty chunk. -/
def npmin (xs : List ℚ) : WithTop ℚ :=
  xs.foldl (fun (m : WithTop ℚ) (v : ℚ) => min m (v : WithTop ℚ)) ⊤

/-- Modelled from the spec: `npmax` (pygeode.tools), elementwise maximum with
`⊥` standing for `-inf`. -/
def npmax (xs : List ℚ) : WithBot ℚ :=
  xs.foldl (fun (m : WithBot ℚ) (v : ℚ) => max m (v : WithBot ℚ)) ⊥

/-- Embeds `MinVar.getview` (reduce.py): `out` starts at `inf` (`⊤`) and each
chunk is combined with `np.minimum`. -/
def minGetview (chunks : List (List ℚ)) : WithTop ℚ :=
  chunks.foldl (fun out c => min out (npmin c)) ⊤

/-- Embeds `MaxVar.getview` (reduce.py): `out` starts at `-inf` (`⊥`) and each
chunk is combined with `np.maximum`. -/
def maxGetview (chunks : List (List ℚ)) : WithBot ℚ :=
  chunks.foldl (fun out c => max out (npmax c)) ⊥

/-- Embeds `VarianceVar.getview` (reduce.py): one pass accumulates the running
sum `x` and running sum of squares `x2`; then `x /= N` and the result is
`(x2 - N*x**2)/(N - 1)`. -/
def varianceGetview (chunks : List (List ℚ)) (N : ℕ) : ℚ :=
  let acc := chunks.foldl
    (fun (a : ℚ × ℚ) c => (a.1 + npsum c, a.2 + npsum (c.map (fun v => v ^ 2))))
    (0, 0)
  let x := acc.1 / (N : ℚ)
  (acc.2 - (N : ℚ) * x ^ 2) / ((N : ℚ) - 1)

/-- Embeds `SDVar.getview` (reduce.py), scalar path: the variance is clamped
to zero when negative and then passed to `np.sqrt`. -/
noncomputable def sdGetview (chunks : List (List ℚ)) (N : ℕ) : ℝ :=
  let variance := varianceGetview chunks N
  Real.sqrt (((if variance < 0 then 0 else variance) : ℚ) : ℝ)

/-- Modelled from the spec: the pairwise combination `np.nansum([a, b], 0)`
used by the accumulation loops (numpy of the Python-2 era pygeode targets):
a NaN (`none`) operand is treated as absent, and combining two NaNs stays
NaN. -/
def nansum2 (a b : Option ℚ) : Option ℚ :=
  match a, b with
  | none, none => none
  | none, some y => some y
  | some x, none => some x
  | some x, some y => some (x + y)

/-- Modelled from the spec: `npnansum` (pygeode.tools, not under src/) sums a
chunk treating NaN elements as absent; a chunk whose contributions are all NaN
(or empty, a zero-contribution bin) yields NaN, never zero. -/
def npnansum (xs : List (Option ℚ)) : Option ℚ := xs.foldl nansum2 none

/-- Embeds `NANSumVar.getview` (reduce.py): `out` starts all-NaN
(`np.zeros(...)*np.nan`) and each chunk is folded in nan-safely via
`np.nansum([out, npnansum(indata)], 0)`. -/
def nansumGetview (chunks : List (List (Option ℚ))) : Option ℚ :=
  chunks.foldl (fun out c => nansum2 out (npnansum c)) none

/-- Embeds the count kludge `1. + indata*0.` of `NANMeanVar.getview`
(reduce.py): a NaN element stays NaN, a finite element becomes one. -/
def nanUnit (v : Option ℚ) : Option ℚ := v.map (fun x => 1 + x * 0)

/-- Embeds NaN-propagating division, the final `out / N` of
`NANMeanVar.getview`: NaN in either operand gives NaN. -/
def nandiv (a b : Option ℚ) : Option ℚ :=
  match a, b with
  | some x, some y => some (x / y)
  | _, _ => none

/-- Embeds `NANMeanVar.getview` (reduce.py): one pass accumulates the
nan-safe running sum `out` and the nan-safe count `N` (both initialized
all-NaN), and the result is `out / N`. -/
def nanmeanGetview (chunks : List (List (Option ℚ))) : Option ℚ :=
  let acc := chunks.foldl
    (fun (a : Option ℚ × Option ℚ) c =>
      (nansum2 a.1 (npnansum c), nansum2 a.2 (npnansum (c.map nanUnit))))
    (none, none)
  nandiv acc.1 acc.2

/-- Modelled from the spec: `partial_sum` (pygeode.tools, not under src/)
scatters a chunk's `(bin, value)` contributions into the running per-bin sum
array with `+=` and increments the per-bin count once per contribution. -/
def partial_sum (data : List (ℕ × ℚ)) (acc : (ℕ → ℚ) × (ℕ → ℚ)) :
    (ℕ → ℚ) × (ℕ → ℚ) :=
  data.foldl
    (fun a p =>
      (fun b => if b = p.1 then a.1 b + p.2 else a.1 b,
       fun b => if b = p.1 then a.2 b + 1 else a.2 b))
    acc

/-- Embeds `Mean.getview` (climat.py): zero-initialized `sum` and `count`
accumulators are updated by `partial_sum` for every chunk `loopover` yields,
and finalized as `sum / count` per output bin. -/
def climMeanGetview (chunks : List (List (ℕ × ℚ))) : ℕ → ℚ :=
  let acc := chunks.foldl (fun a ch => partial_sum ch a)
    ((fun _ => 0), (fun _ => 0))
  fun b => acc.1 b / acc.2 b

/-- Embeds `Trend.getview` (climat.py) at one output position: the partial
sums `F, X, XF, X2` of the data, of the elapsed seconds `t`, of their product
`data*t` and of `t**2` are each divided by their contribution count, and the
stored coefficients are `B/(X2 - X**2)` at coefficient index 0 and
`A/(X2 - X**2)` at index 1, with `A = XF - X*F` and `B = X2*F - X*XF`. -/
def trendGetview (t x : List ℚ) : ℚ × ℚ :=
  let F := x.sum / (x.length : ℚ)
  let X := t.sum / (t.length : ℚ)
  let XF := (List.zipWith (fun a b => a * b) x t).sum
    / ((List.zipWith (fun a b => a * b) x t).length : ℚ)
  let X2 := (t.map (fun v => v ^ 2)).sum / ((t.map (fun v => v ^ 2)).length : ℚ)
  let A := XF - X * F
  let B := X2 * F - X * XF
  (B / (X2 - X ^ 2), A / (X2 - X ^ 2))

/-- Arithmetic mean of a list, the `E[·]` of the specification's closed-form
least-squares formulas. -/
def specMean (xs : List ℚ) : ℚ := xs.sum / (xs.length : ℚ)

/-- Evenly spaced elapsed-seconds values: sample `i` is `t0 + d*i`. -/
def evenTimes (n : ℕ) (t0 d : ℚ) : List ℚ :=
  (List.range n).map (fun (i : ℕ) => t0 + d * (i : ℚ))

/-- Data lying exactly on a line: value `a*s + b` at elapsed time `s`. -/
def linData (a b : ℚ) (t : List ℚ) : List ℚ := t.map (fun s => a * s + b)

/-- Embeds the guard of `Trend.__init__` (climat.py): right after
`TimeOp.__init__` it asserts `var.shape[self.ti] > 1` — more than one
timestep along the time axis — so the check runs at construction, before any
accumulation; `tvalues` is the time axis value sequence. -/
def trendInit (tvalues : List ℚ) : Except String Unit :=
  if 1 < tvalues.length then Except.ok ()
  else Except.error "need more than one timestep for a trend"

/-- Values of a series falling in climatological output bin `b`: `common_map`
(via `loopover`) routes every input position to exactly one output bin. -/
def selectBin (bins : List ℕ) (xs : List ℚ) (b : ℕ) : List ℚ :=
  ((bins.zip xs).filter (fun p => p.1 == b)).map Prod.snd

/-- Embeds `climtrend` = `Clim` + `Trend` (climat.py): per climatological
output bin, the trend coefficients of the sub-series mapped into that bin. -/
def climtrendCoefs (bins : List ℕ) (t x : List ℚ) : ℕ → ℚ × ℚ :=
  fun b => trendGetview (selectBin bins t b) (selectBin bins x b)

/-- Embeds `from_trend.getview` (climat.py): `A*secs + B` per element of the
target time axis, the coefficient pair `(B, A)` taken from the element's
climatological bin (`B = coef[0,...]`, `A = coef[1,...]`). -/
def from_trendGetview (coefs : ℕ → ℚ × ℚ) (bins : List ℕ) (secs : List ℚ) :
    List ℚ :=
  (bins.zip secs).map (fun p => (coefs p.1).2 * p.2 + (coefs p.1).1)

/-- Embeds `detrend` (climat.py): the climatological trend of the variable is
computed and materialized (`climtrend(var).load()`), reconstructed onto the
variable's own time axis via `from_trend`, and subtracted: `var - clim`. -/
def detrend (bins : List ℕ) (x t : List ℚ) : List ℚ :=
  List.zipWith (fun a b => a - b) x
    (from_trendGetview (climtrendCoefs bins t x) bins t)

/-- What `ReducedVar.__new__` hands back to the caller: a lazy node, or an
eagerly computed in-memory result. -/
inductive ReduceResult where
  | lazyNode : ReduceResult
  | eagerArray : ReduceResult
deriving DecidableEq

/-- Embeds the dispatch of `ReducedVar.__new__` (reduce.py): with no indices
the reduction is computed over the whole domain right away (`new.get()`);
otherwise, if every input variable already holds in-memory `values`
(`all(hasattr(v,'values') for v in varlist)`), the result is computed
immediately (`new.load(pbar=None)`); only otherwise is the lazy node
returned. `hasValues` records `hasattr(v, 'values')` per input variable. -/
def reducedVarNew (hasValues : List Bool) (nindices : ℕ) : ReduceResult :=
  if nindices = 0 then ReduceResult.eagerArray
  else if hasValues.all (fun b => b) then ReduceResult.eagerArray
  else ReduceResult.lazyNode

/-- Output metadata of `ReducedVar.__init__` for a single input variable. -/
structure ReducedVarState (α δ : Type) where
  outAxes : List α
  dtype : δ

/-- Embeds `ReducedVar.__init__` (reduce.py) for a single input variable:
the axis identifiers have already been mapped through `var.whichaxis` to
integer positions, which are sorted (`np.sort`); the output axes are
`[a for i,a in enumerate(axes) if i not in indices]` and `dtype` is taken
from the input variable unchanged. -/
def reducedVarInit {α δ : Type} (axes : List α) (dtype : δ)
    (indices : List ℕ) : ReducedVarState α δ :=
  let sorted := indices.mergeSort (fun a b => decide (a ≤ b))
  { outAxes := (axes.enum.filter (fun p => !(sorted.contains p.1))).map Prod.snd
    dtype := dtype }

/-- Python exception kinds distinguished by the embedding of `whichaxis`. -/
inductive PyErr where
  | keyError : PyErr
  | typeError : PyErr
deriving DecidableEq

/-- Embeds `Var.whichaxis` (var.py) restricted to integer arguments: the
branch `isinstance(iaxis, int) and 0 <= iaxis < len(self.axes)` returns the
integer itself; any other integer falls through the `isinstance` chain to
`issubclass(iaxis, Axis)`, which raises `TypeError` for a non-class argument,
so the final `raise KeyError` line is never reached for an integer. -/
def whichaxisInt (naxes : ℕ) (i : ℤ) : Except PyErr ℕ :=
  if 0 ≤ i ∧ i < (naxes : ℤ) then Except.ok i.toNat
  else Except.error PyErr.typeError

/-- Embeds `Var.getaxis` (var.py) for integer arguments:
`self.axes[self.whichaxis(iaxis)]`, propagating whatever error `whichaxis`
raises; the in-range branch indexes the axes tuple (always valid there). -/
def getaxisInt {α : Type} (axes : List α) (i : ℤ) : Except PyErr α :=
  match whichaxisInt axes.length i with
  | Except.ok k =>
      match axes[k]? with
      | some a => Except.ok a
      | none => Except.error PyErr.keyError
  | Except.error e => Except.error e

end PyGeode

namespace PyGeode

/-- Lemma: folding addition of chunk sums from any initial accumulator equals
the initial value plus the sum of the concatenated chunks. -/
theorem foldl_add_npsum (chunks : List (List ℚ)) :
    ∀ init : ℚ, chunks.foldl (fun out c => out + npsum c) init
      = init + npsum chunks.flatten := by
  induction chunks with
  | nil => intro init; simp [npsum]
  | cons c cs ih =>
      intro init
      rw [List.foldl_cons, ih, List.flatten_cons]
      simp only [npsum, List.sum_append]
      ring

/-- Lemma: the mapped variant, used for the sum-of-squares accumulator. -/
theorem foldl_add_npsum_map (f : ℚ → ℚ) (chunks : List (List ℚ)) :
    ∀ init : ℚ, chunks.foldl (fun out c => out + npsum (c.map f)) init
      = init + npsum (chunks.flatten.map f) := by
  induction chunks with
  | nil => intro init; simp [npsum]
  | cons c cs ih =>
      intro init
      rw [List.foldl_cons, ih, List.flatten_cons]
      simp only [npsum, List.map_append, List.sum_append]
      ring

/-- Lemma: a fold that updates the two components of a pair independently is
the pair of the two separate folds. -/
theorem foldl_pair {α β γ : Type} (f : β → α → β) (g : γ → α → γ) (l : List α) :
    ∀ (a : β) (b : γ), l.foldl (fun p c => (f p.1 c, g p.2 c)) (a, b)
      = (l.foldl f a, l.foldl g b) := by
  induction l with
  | nil => intro a b; rfl
  | cons c cs ih => intro a b; simp only [List.foldl_cons, ih]

/-- Lemma: NaN is a right identity for the nan-safe pairwise combination. -/
theorem nansum2_none_right (a : Option ℚ) : nansum2 a none = a := by
  cases a <;> rfl

/-- Lemma: NaN is a left identity for the nan-safe pairwise combination. -/
theorem nansum2_none_left (b : Option ℚ) : nansum2 none b = b := by
  cases b <;> rfl

/-- Lemma: the nan-safe pairwise combination is associative. -/
theorem nansum2_assoc (a b c : Option ℚ) :
    nansum2 (nansum2 a b) c = nansum2 a (nansum2 b c) := by
  cases a <;> cases b <;> cases c <;> simp [nansum2, add_assoc]

/-- Lemma: folding the nan-safe combination from any accumulator equals
combining the accumulator with the nan-aware sum of the list. -/
theorem foldl_nansum2 (xs : List (Option ℚ)) :
    ∀ init : Option ℚ, xs.foldl nansum2 init = nansum2 init (npnansum xs) := by
  induction xs with
  | nil => intro init; rw [List.foldl_nil, npnansum, List.foldl_nil,
      nansum2_none_right]
  | cons v vs ih =>
      intro init
      have h : npnansum (v :: vs) = nansum2 v (npnansum vs) := by
        rw [npnansum, List.foldl_cons, nansum2_none_left, ih]
      rw [List.foldl_cons, ih, h, nansum2_assoc]

/-- Lemma: the nan-aware sum of a cons peels off the head element. -/
theorem npnansum_cons (v : Option ℚ) (vs : List (Option ℚ)) :
    npnansum (v :: vs) = nansum2 v (npnansum vs) := by
  rw [npnansum, List.foldl_cons, nansum2_none_left, foldl_nansum2]

/-- Lemma: the nan-aware sum splits over list concatenation. -/
theorem npnansum_append (xs ys : List (Option ℚ)) :
    npnansum (xs ++ ys) = nansum2 (npnansum xs) (npnansum ys) := by
  rw [npnansum, List.foldl_append, foldl_nansum2]
  rfl

/-- Lemma: the chunked nan-aware sum accumulation collapses to the nan-aware
sum of the concatenated input, whatever the chunking. -/
theorem nansumGetview_eq_flatten (chunks : List (List (Option ℚ))) :
    nansumGetview chunks = npnansum chunks.flatten := by
  have key : ∀ init : Option ℚ,
      chunks.foldl (fun out c => nansum2 out (npnansum c)) init
        = nansum2 init (npnansum chunks.flatten) := by
    induction chunks with
    | nil => intro init; rw [List.foldl_nil, List.flatten_nil]; exact
        (nansum2_none_right init).symm
    | cons c cs ih =>
        intro init
        rw [List.foldl_cons, ih, List.flatten_cons, npnansum_append,
          nansum2_assoc]
  rw [nansumGetview, key, nansum2_none_left]

/-- Lemma: the nan-aware sum is NaN exactly when every element is NaN. -/
theorem npnansum_eq_none_iff (xs : List (Option ℚ)) :
    npnansum xs = none ↔ ∀ v ∈ xs, v = none := by
  induction xs with
  | nil => simp [npnansum]
  | cons v vs ih =>
      rw [npnansum_cons]
      cases v with
      | none => simp [nansum2_none_left, ih]
      | some q => cases h : npnansum vs <;> simp [nansum2]

/-- Lemma: with at least one finite element, the nan-aware sum is the finite
sum of the present elements. -/
theorem npnansum_eq_some (xs : List (Option ℚ)) (h : ¬ ∀ v ∈ xs, v = none) :
    npnansum xs = some ((xs.filterMap id).sum) := by
  induction xs with
  | nil => exact absurd (by simp) h
  | cons v vs ih =>
      rw [npnansum_cons]
      cases v with
      | none =>
          have h' : ¬ ∀ v ∈ vs, v = none := by
            intro hall; exact h (by simpa using hall)
          rw [ih h', nansum2_none_left]
          simp
      | some q =>
          by_cases hall : ∀ v ∈ vs, v = none
          · rw [(npnansum_eq_none_iff vs).mpr hall, nansum2_none_right]
            have : vs.filterMap id = [] := by
              rw [List.filterMap_eq_nil_iff]
              intro a ha; exact hall a ha
            simp [this]
          · rw [ih hall]
            simp [nansum2]

/-- Lemma: the count kludge maps NaN to NaN and nothing else to NaN. -/
theorem nanUnit_eq_none_iff (v : Option ℚ) : nanUnit v = none ↔ v = none := by
  cases v <;> simp [nanUnit]

/-- Lemma: the present values of the count kludge sum to the number of
present elements. -/
theorem nanUnit_count (l : List (Option ℚ)) :
    ((l.map nanUnit).filterMap id).sum = ((l.filterMap id).length : ℚ) := by
  induction l with
  | nil => simp
  | cons v vs ih =>
      cases v with
      | none => simpa [nanUnit] using ih
      | some q =>
          have hl : List.filterMap id (List.map nanUnit (some q :: vs))
              = (1 + q * 0) :: List.filterMap id (List.map nanUnit vs) := rfl
          have hr : List.filterMap id (some q :: vs)
              = q :: List.filterMap id vs := rfl
          rw [hl, List.sum_cons, ih, hr, List.length_cons]
          push_cast
          ring

/-- Lemma: the paired sum/count accumulation of `NANMeanVar.getview`
collapses to the nan-aware sum and count of the concatenated input. -/
theorem nanmeanGetview_eq_flatten (chunks : List (List (Option ℚ))) :
    nanmeanGetview chunks
      = nandiv (npnansum chunks.flatten)
          (npnansum (chunks.flatten.map nanUnit)) := by
  have hpair := foldl_pair (fun (o : Option ℚ) (c : List (Option ℚ)) =>
      nansum2 o (npnansum c))
    (fun (o : Option ℚ) (c : List (Option ℚ)) =>
      nansum2 o (npnansum (c.map nanUnit))) chunks none none
  have h1 : chunks.foldl (fun (o : Option ℚ) c => nansum2 o (npnansum c)) none
      = npnansum chunks.flatten := nansumGetview_eq_flatten chunks
  have h2 : chunks.foldl
      (fun (o : Option ℚ) c => nansum2 o (npnansum (c.map nanUnit))) none
      = npnansum (chunks.flatten.map nanUnit) := by
    have h3 : (chunks.map (fun c => c.map nanUnit)).foldl
        (fun out c => nansum2 out (npnansum c)) none
        = chunks.foldl
            (fun (o : Option ℚ) c => nansum2 o (npnansum (c.map nanUnit)))
            none := List.foldl_map _ _ _ _
    rw [← h3]
    have h4 := nansumGetview_eq_flatten (chunks.map (fun c => c.map nanUnit))
    rw [nansumGetview] at h4
    rw [h4, List.map_flatten]
  rw [nanmeanGetview, hpair, h1, h2]

/-- Lemma: folding elementwise minimum from any accumulator equals the
minimum of the accumulator and the chunk minimum. -/
theorem foldl_min_elem (xs : List ℚ) :
    ∀ init : WithTop ℚ,
      xs.foldl (fun (m : WithTop ℚ) (v : ℚ) => min m (v : WithTop ℚ)) init
        = min init (npmin xs) := by
  induction xs with
  | nil => intro init; simp [npmin]
  | cons v vs ih =>
      intro init
      have h : npmin (v :: vs) = min (v : WithTop ℚ) (npmin vs) := by
        rw [npmin, List.foldl_cons, ih]
        simp
      rw [List.foldl_cons, ih, h, min_assoc]

/-- Lemma: the chunked minimum accumulation collapses to the minimum of the
concatenated input, whatever the chunking. -/
theorem minGetview_eq_flatten (chunks : List (List ℚ)) :
    minGetview chunks = npmin chunks.flatten := by
  have key : ∀ init : WithTop ℚ,
      chunks.foldl (fun out c => min out (npmin c)) init
        = min init (npmin chunks.flatten) := by
    induction chunks with
    | nil => intro init; simp [npmin]
    | cons c cs ih =>
        intro init
        have happ : npmin (c ++ cs.flatten) = min (npmin c) (npmin cs.flatten) := by
          rw [npmin, List.foldl_append, foldl_min_elem]
          rfl
        rw [List.foldl_cons, ih, List.flatten_cons, happ, min_assoc]
  rw [minGetview, key]
  simp

/-- Lemma: folding elementwise maximum from any accumulator equals the
maximum of the accumulator and the chunk maximum. -/
theorem foldl_max_elem (xs : List ℚ) :
    ∀ init : WithBot ℚ,
      xs.foldl (fun (m : WithBot ℚ) (v : ℚ) => max m (v : WithBot ℚ)) init
        = max init (npmax xs) := by
  induction xs with
  | nil => intro init; simp [npmax]
  | cons v vs ih =>
      intro init
      have h : npmax (v :: vs) = max (v : WithBot ℚ) (npmax vs) := by
        rw [npmax, List.foldl_cons, ih]
        simp
      rw [List.foldl_cons, ih, h, max_assoc]

/-- Lemma: the chunked maximum accumulation collapses to the maximum of the
concatenated input, whatever the chunking. -/
theorem maxGetview_eq_flatten (chunks : List (List ℚ)) :
    maxGetview chunks = npmax chunks.flatten := by
  have key : ∀ init : WithBot ℚ,
      chunks.foldl (fun out c => max out (npmax c)) init
        = max init (npmax chunks.flatten) := by
    induction chunks with
    | nil => intro init; simp [npmax]
    | cons c cs ih =>
        intro init
        have happ : npmax (c ++ cs.flatten) = max (npmax c) (npmax cs.flatten) := by
          rw [npmax, List.foldl_append, foldl_max_elem]
          rfl
        rw [List.foldl_cons, ih, List.flatten_cons, happ, max_assoc]
  rw [maxGetview, key]
  simp

/-- Lemma: scattering the chunks one after another is scattering the
concatenated input: `partial_sum` accumulation is chunking-independent. -/
theorem foldl_partial_sum (chunks : List (List (ℕ × ℚ))) :
    ∀ acc : (ℕ → ℚ) × (ℕ → ℚ),
      chunks.foldl (fun a ch => partial_sum ch a) acc
        = partial_sum chunks.flatten acc := by
  induction chunks with
  | nil => intro acc; rfl
  | cons c cs ih =>
      intro acc
      rw [List.foldl_cons, ih, List.flatten_cons]
      simp only [partial_sum]
      rw [List.foldl_append]

/-- Lemma: the variance pass's paired sum and sum-of-squares accumulators
collapse to the sums over the concatenated input. -/
theorem variance_acc_eq_flatten (chunks : List (List ℚ)) :
    chunks.foldl
      (fun (a : ℚ × ℚ) c => (a.1 + npsum c, a.2 + npsum (c.map (fun v => v ^ 2))))
      (0, 0)
      = (npsum chunks.flatten, npsum (chunks.flatten.map (fun v => v ^ 2))) := by
  have hpair := foldl_pair (fun (o : ℚ) (c : List ℚ) => o + npsum c)
    (fun (o : ℚ) (c : List ℚ) => o + npsum (c.map (fun v => v ^ 2)))
    chunks 0 0
  rw [hpair, foldl_add_npsum, foldl_add_npsum_map, zero_add, zero_add]

/-- Lemma: a no-NaN list's present values are the list's values. -/
theorem filterMap_id_of_all_some (l : List (Option ℚ))
    (h : ∀ v ∈ l, v ≠ none) :
    ∃ l' : List ℚ, l.filterMap id = l' ∧ l'.length = l.length ∧ l = l'.map some := by
  induction l with
  | nil => exact ⟨[], rfl, rfl, rfl⟩
  | cons v vs ih =>
      obtain ⟨l', hfm, hlen, hmap⟩ := ih (fun w hw => h w (List.mem_cons_of_mem _ hw))
      cases v with
      | none => exact absurd rfl (h none (List.mem_cons_self _ _))
      | some q =>
          refine ⟨q :: l', ?_, ?_, ?_⟩
          · rw [show List.filterMap id (some q :: vs) = q :: List.filterMap id vs
              from rfl, hfm]
          · rw [List.length_cons, List.length_cons, hlen]
          · rw [List.map_cons, ← hmap]

/-- Lemma: flattening chunkwise-stripped chunks strips the flattened input. -/
theorem flatten_filterMap_chunks (chunks : List (List (Option ℚ))) :
    (chunks.map (fun c => c.filterMap id)).flatten
      = chunks.flatten.filterMap id := by
  induction chunks with
  | nil => rfl
  | cons c cs ih =>
      rw [List.map_cons, List.flatten_cons, List.flatten_cons, ih,
        List.filterMap_append]

/-- Lemma: subtracting a list elementwise and adding it back is the
identity. -/
theorem zipWith_sub_add (x r : List ℚ) (h : r.length = x.length) :
    List.zipWith (fun a b => a + b) (List.zipWith (fun a b => a - b) x r) r
      = x := by
  induction x generalizing r with
  | nil => cases r with
    | nil => rfl
    | cons b bs => exact absurd h (by simp)
  | cons a as ih =>
      cases r with
      | nil => exact absurd h (by simp)
      | cons b bs =>
          rw [List.zipWith_cons_cons, List.zipWith_cons_cons, sub_add_cancel,
            ih bs (by simpa using h)]

/-- Lemma: the count kludge keeps a list with a finite element from becoming
all-NaN. -/
theorem map_nanUnit_not_all_none (l : List (Option ℚ))
    (h : ¬ ∀ v ∈ l, v = none) : ¬ ∀ v ∈ l.map nanUnit, v = none := by
  intro hall
  apply h
  intro v hv
  have hm := hall (nanUnit v) (List.mem_map_of_mem _ hv)
  exact (nanUnit_eq_none_iff v).mp hm

/-- Lemma: filtering and then projecting is a single `filterMap`. -/
theorem filter_map_eq_filterMap {β γ : Type} (q : β → Bool) (f : β → γ)
    (l : List β) :
    (l.filter q).map f
      = l.filterMap (fun x => if q x then some (f x) else none) := by
  induction l with
  | nil => rfl
  | cons b bs ih =>
      cases hq : q b <;>
        simp [List.filter_cons, hq, List.filterMap_cons, ih]

/-- C2: the variance reduction (ddof = 1) applied to the series
`[1, 2, 3, 4, 5]` over its only axis returns exactly `5/2`; the stdev
reduction on the same series returns the square root of `5/2`; and in general
the variance pass finalizes its running sum and sum-of-squares accumulators as
`(sum(x²) − N·mean²) / (N−1)`. -/
theorem variance_stdev_c2 (chunks : List (List ℚ)) (N : ℕ) :
    varianceGetview [[1, 2, 3, 4, 5]] 5 = 5 / 2 ∧
    sdGetview [[1, 2, 3, 4, 5]] 5 = Real.sqrt (5 / 2) ∧
    varianceGetview chunks N =
      (npsum (chunks.flatten.map (fun v => v ^ 2))
        - (N : ℚ) * (npsum chunks.flatten / (N : ℚ)) ^ 2) / ((N : ℚ) - 1) := by
  have hv : varianceGetview [[1, 2, 3, 4, 5]] 5 = 5 / 2 := by
    simp only [varianceGetview, variance_acc_eq_flatten]
    norm_num [npsum]
  refine ⟨hv, ?_, ?_⟩
  · simp only [sdGetview, hv]
    norm_num
  · simp only [varianceGetview, variance_acc_eq_flatten]

/-- C7 counterexample: a time axis holding two equal time values has only one
distinct time sample, yet the trend construction accepts it: the guard of
`Trend.__init__` checks `var.shape[ti] > 1`, the sample count, not
distinctness. -/
theorem climtrend_two_equal_timesteps_ok :
    (([0, 0] : List ℚ).dedup.length = 1) ∧ trendInit [0, 0] = Except.ok () := by
  constructor
  · decide
  · rfl

/-- C7 amended: constructing the linear-trend reduction succeeds exactly when
the time axis has at least 2 timesteps (counting samples, not distinct time
values); with fewer it fails at construction time, before any accumulation. -/
theorem climtrend_init_iff (tvalues : List ℚ) :
    trendInit tvalues = Except.ok () ↔ 2 ≤ tvalues.length := by
  rw [trendInit]
  split_ifs with h
  · simp only [true_iff]
    omega
  · simp only [reduceCtorEq, false_iff]
    omega

/-- C8 counterexample: a reduction over one axis of a variable whose values
are already in memory returns an eagerly computed array, not a lazy node —
the in-memory heuristic of `ReducedVar.__new__` decides, without any caller
opt-in. -/
theorem reduce_inmemory_is_eager :
    reducedVarNew [true] 1 = ReduceResult.eagerArray ∧
    reducedVarNew [true] 1 ≠ ReduceResult.lazyNode := by
  constructor
  · rfl
  · decide

/-- C8 amended: a reduction call returns a lazy node exactly when at least one
reduction axis is given and not every input variable already holds in-memory
values; otherwise `ReducedVar.__new__` eagerly computes the result, an
implicit heuristic based on whether the inputs are in memory. -/
theorem reduce_lazy_iff (hasValues : List Bool) (nindices : ℕ) :
    reducedVarNew hasValues nindices = ReduceResult.lazyNode ↔
      nindices ≠ 0 ∧ hasValues.all (fun b => b) ≠ true := by
  rw [reducedVarNew]
  split_ifs with h1 h2
  · simp [h1]
  · simp [h1, h2]
  · simp [h1, h2]

/-- C10 counterexample: `whichaxis(-1)` on a two-axis variable raises
`TypeError` (the fallthrough `issubclass(iaxis, Axis)` applied to an integer),
not `KeyError`, and the negative index is not wrapped around to axis 1. -/
theorem whichaxis_negative_int_typeerror :
    whichaxisInt 2 (-1) = Except.error PyErr.typeError ∧
    whichaxisInt 2 (-1) ≠ Except.error PyErr.keyError ∧
    whichaxisInt 2 (-1) ≠ Except.ok 1 := by
  have h : whichaxisInt 2 (-1) = Except.error PyErr.typeError := rfl
  refine ⟨h, ?_, ?_⟩ <;> rw [h] <;> simp

/-- C10 amended: `whichaxis` with an integer argument returns the integer
itself exactly when `0 ≤ i < naxes`; every other integer raises `TypeError`
(not `KeyError`, and negative indices are rejected, not wrapped); `getaxis`
with the same argument returns the i-th axis exactly when the index is in
range, propagating the error otherwise. -/
theorem whichaxis_getaxis_int_spec (naxes : ℕ) (axes : List ℚ) (i : ℤ)
    (a : ℚ) :
    (whichaxisInt naxes i = Except.ok i.toNat ↔ 0 ≤ i ∧ i < (naxes : ℤ)) ∧
    (whichaxisInt naxes i = Except.error PyErr.typeError ↔
      ¬(0 ≤ i ∧ i < (naxes : ℤ))) ∧
    (getaxisInt axes i = Except.ok a ↔
      0 ≤ i ∧ i < (axes.length : ℤ) ∧ axes[i.toNat]? = some a) := by
  refine ⟨?_, ?_, ?_⟩
  · rw [whichaxisInt]
    split_ifs with h <;> simp [h]
  · rw [whichaxisInt]
    split_ifs with h <;> simp [h]
  · by_cases h : 0 ≤ i ∧ i < (axes.length : ℤ)
    · have hk : whichaxisInt axes.length i = Except.ok i.toNat := by
        rw [whichaxisInt, if_pos h]
      cases hx : axes[i.toNat]? with
      | some b =>
          have hred : getaxisInt axes i = Except.ok b := by
            simp only [getaxisInt, hk, hx]
          rw [hred]
          simp [hx, h.1, h.2]
      | none =>
          have hred : getaxisInt axes i = Except.error PyErr.keyError := by
            simp only [getaxisInt, hk, hx]
          rw [hred]
          simp [hx]
    · have hk : whichaxisInt axes.length i = Except.error PyErr.typeError := by
        rw [whichaxisInt, if_neg h]
      have hred : getaxisInt axes i = Except.error PyErr.typeError := by
        simp only [getaxisInt, hk]
      rw [hred]
      constructor
      · intro hc
        exact absurd hc (by simp)
      · intro hc
        exact absurd ⟨hc.1, hc.2.1⟩ h

/-- C9: for a reduction built from a single input variable, the output axes
are exactly the input's axes with the positions named by the reduction
indices removed — the i-th input axis is kept exactly when `i` is not a
reduction index, and the survivors keep their original order (a sublist of
the input axes) — and the output dtype equals the input variable's dtype. -/
theorem reducedVar_axes_dtype {α δ : Type} (axes : List α) (dtype : δ)
    (indices : List ℕ) :
    (reducedVarInit axes dtype indices).outAxes
      = (axes.mapIdx
          (fun i a => if i ∈ indices then none else some a)).reduceOption ∧
    (reducedVarInit axes dtype indices).outAxes.Sublist axes ∧
    (reducedVarInit axes dtype indices).dtype = dtype := by
  refine ⟨?_, ?_, rfl⟩
  · rw [reducedVarInit]
    simp only []
    rw [filter_map_eq_filterMap, List.mapIdx_eq_enum_map, List.reduceOption,
      List.filterMap_map]
    apply List.filterMap_congr
    intro p hp
    obtain ⟨k, b⟩ := p
    by_cases hmem : k ∈ indices
    · have hc : (indices.mergeSort (fun a b => decide (a ≤ b))).contains k
          = true := by
        rw [List.contains, List.elem_eq_mem, decide_eq_true_iff]
        exact List.mem_mergeSort.mpr hmem
      simp [hc, hmem, Function.uncurry]
    · have hc : (indices.mergeSort (fun a b => decide (a ≤ b))).contains k
          = false := by
        rw [List.contains, List.elem_eq_mem, decide_eq_false_iff_not]
        exact fun hm => hmem (List.mem_mergeSort.mp hm)
      simp [hc, hmem, Function.uncurry]
  · rw [reducedVarInit]
    simp only []
    have h1 : (axes.enum.filter
        (fun p => !((indices.mergeSort (fun a b => decide (a ≤ b))).contains
          p.1))).Sublist axes.enum := List.filter_sublist _
    have h2 := h1.map Prod.snd
    rwa [List.enum_map_snd] at h2

/-- C3: for every input and every chunking, the nan-aware sum and mean yield
NaN in an output bin exactly when every contributing input element for that
bin is NaN; with at least one finite contribution the bin receives the finite
sum of the present elements (respectively that sum divided by the count of
present elements), so NaN elements are absent from both the accumulated sum
and the implicit count. -/
theorem nan_reductions_c3 (chunks : List (List (Option ℚ))) :
    (nansumGetview chunks = none ↔ ∀ v ∈ chunks.flatten, v = none) ∧
    (nanmeanGetview chunks = none ↔ ∀ v ∈ chunks.flatten, v = none) ∧
    ((¬ ∀ v ∈ chunks.flatten, v = none) →
      nansumGetview chunks = some ((chunks.flatten.filterMap id).sum) ∧
      nanmeanGetview chunks
        = some ((chunks.flatten.filterMap id).sum
            / ((chunks.flatten.filterMap id).length : ℚ))) := by
  have hsum := nansumGetview_eq_flatten chunks
  have hmean := nanmeanGetview_eq_flatten chunks
  refine ⟨?_, ?_, ?_⟩
  · rw [hsum]
    exact npnansum_eq_none_iff _
  · rw [hmean]
    constructor
    · intro hnone
      by_contra hnot
      have h1 := npnansum_eq_some _ hnot
      have h2 := npnansum_eq_some _ (map_nanUnit_not_all_none _ hnot)
      rw [h1, h2] at hnone
      exact Option.noConfusion hnone
    · intro hall
      have h1 : npnansum chunks.flatten = none :=
        (npnansum_eq_none_iff _).mpr hall
      rw [h1]
      cases npnansum (chunks.flatten.map nanUnit) <;> rfl
  · intro hnot
    have h1 := npnansum_eq_some _ hnot
    have h2 := npnansum_eq_some _ (map_nanUnit_not_all_none _ hnot)
    constructor
    · rw [hsum, h1]
    · rw [hmean, h1, h2, nanUnit_count]
      rfl

/-- C4 counterexample: the empty input contains no NaN elements, yet with
default arguments `nansum` yields NaN for its zero-contribution output bin
while plain `sum` yields 0, so the two results differ. -/
theorem nansum_empty_differs :
    (∀ v ∈ ([] : List (List (Option ℚ))).flatten, v ≠ none) ∧
    nansumGetview ([] : List (List (Option ℚ)))
      ≠ some (sumGetview ([] : List (List ℚ))) := by
  constructor
  · intro v hv
    simp at hv
  · intro hc
    exact Option.noConfusion hc

/-- C4 amended: for every non-empty input with no NaN elements, `nansum` with
default arguments (no axis weights, hence `NANSumVar`) returns exactly the
plain `sum` of the input, and `nanmean` likewise matches the plain `mean`
(whose divisor `N` is the full element count). -/
theorem nansum_matches_sum_nonempty (chunks : List (List (Option ℚ)))
    (hsome : ∀ v ∈ chunks.flatten, v ≠ none) (hne : chunks.flatten ≠ []) :
    nansumGetview chunks
      = some (sumGetview (chunks.map (fun c => c.filterMap id))) ∧
    nanmeanGetview chunks
      = some (meanGetview (chunks.map (fun c => c.filterMap id))
          chunks.flatten.length) := by
  have hnot : ¬ ∀ v ∈ chunks.flatten, v = none := by
    intro hall
    obtain ⟨v, hv⟩ := List.exists_mem_of_ne_nil _ hne
    exact hsome v hv (hall v hv)
  have h1 := npnansum_eq_some chunks.flatten hnot
  have h2 := npnansum_eq_some _ (map_nanUnit_not_all_none _ hnot)
  obtain ⟨l', hfm, hlen, hmap⟩ := filterMap_id_of_all_some chunks.flatten hsome
  constructor
  · rw [nansumGetview_eq_flatten, h1, sumGetview, foldl_add_npsum, zero_add,
      flatten_filterMap_chunks, npsum]
  · rw [nanmeanGetview_eq_flatten, h1, h2, nanUnit_count, meanGetview,
      foldl_add_npsum, zero_add, flatten_filterMap_chunks, npsum]
    rw [show nandiv (some ((chunks.flatten.filterMap id).sum))
        (some (((chunks.flatten.filterMap id).length : ℚ)))
        = some ((chunks.flatten.filterMap id).sum
            / ((chunks.flatten.filterMap id).length : ℚ)) from rfl]
    rw [hfm, hlen]

/-- C4 witness: a concrete NaN-free non-empty chunked input on which `nansum`
equals plain `sum` and `nanmean` equals plain `mean`. -/
theorem nansum_matches_sum_nonempty_witness :
    nansumGetview [[some 1], [some 2, some 3]]
      = some (sumGetview [[1], [2, 3]]) ∧
    nanmeanGetview [[some 1], [some 2, some 3]]
      = some (meanGetview [[1], [2, 3]] 3) :=
  nansum_matches_sum_nonempty [[some 1], [some 2, some 3]] (by decide)
    (by decide)

/-- C5: every reduction's accumulated result is invariant to the chunk split
of the input (hence to the memory budget driving `loop_mem`): two chunkings
with the same concatenation give identical results for sum, mean, min, max,
variance, the nan-aware sum and mean, and the binned climatological mean at
every output bin. -/
theorem reduction_chunk_invariance
    (ch1 ch2 : List (List ℚ)) (nch1 nch2 : List (List (Option ℚ)))
    (bch1 bch2 : List (List (ℕ × ℚ))) (N : ℕ) (b : ℕ)
    (h : ch1.flatten = ch2.flatten) (hn : nch1.flatten = nch2.flatten)
    (hb : bch1.flatten = bch2.flatten) :
    sumGetview ch1 = sumGetview ch2 ∧
    meanGetview ch1 N = meanGetview ch2 N ∧
    minGetview ch1 = minGetview ch2 ∧
    maxGetview ch1 = maxGetview ch2 ∧
    varianceGetview ch1 N = varianceGetview ch2 N ∧
    nansumGetview nch1 = nansumGetview nch2 ∧
    nanmeanGetview nch1 = nanmeanGetview nch2 ∧
    climMeanGetview bch1 b = climMeanGetview bch2 b := by
  refine ⟨?_, ?_, ?_, ?_, ?_, ?_, ?_, ?_⟩
  · rw [sumGetview, sumGetview, foldl_add_npsum, foldl_add_npsum, h]
  · rw [meanGetview, meanGetview, foldl_add_npsum, foldl_add_npsum, h]
  · rw [minGetview_eq_flatten, minGetview_eq_flatten, h]
  · rw [maxGetview_eq_flatten, maxGetview_eq_flatten, h]
  · simp only [varianceGetview, variance_acc_eq_flatten, h]
  · rw [nansumGetview_eq_flatten, nansumGetview_eq_flatten, hn]
  · rw [nanmeanGetview_eq_flatten, nanmeanGetview_eq_flatten, hn]
  · simp only [climMeanGetview, foldl_partial_sum, hb]

/-- C5 witness: two different chunkings of the same concrete inputs give
identical results for every embedded reduction. -/
theorem reduction_chunk_invariance_witness :
    sumGetview [[1], [2, 3]] = sumGetview [[1, 2, 3]] ∧
    meanGetview [[1], [2, 3]] 3 = meanGetview [[1, 2, 3]] 3 ∧
    minGetview [[1], [2, 3]] = minGetview [[1, 2, 3]] ∧
    maxGetview [[1], [2, 3]] = maxGetview [[1, 2, 3]] ∧
    varianceGetview [[1], [2, 3]] 3 = varianceGetview [[1, 2, 3]] 3 ∧
    nansumGetview [[some 1], [none, some 3]]
      = nansumGetview [[some 1, none, some 3]] ∧
    nanmeanGetview [[some 1], [none, some 3]]
      = nanmeanGetview [[some 1, none, some 3]] ∧
    climMeanGetview [[(0, 1), (1, 2)], [(0, 5)]] 0
      = climMeanGetview [[(0, 1)], [(1, 2), (0, 5)]] 0 :=
  reduction_chunk_invariance [[1], [2, 3]] [[1, 2, 3]]
    [[some 1], [none, some 3]] [[some 1, none, some 3]]
    [[(0, 1), (1, 2)], [(0, 5)]] [[(0, 1)], [(1, 2), (0, 5)]]
    3 0 rfl rfl rfl

/-- C6: `detrend(x)` is `x` minus the series reconstructed from the
climatological trend coefficients (`A·t + B` per element, with the
coefficients of the element's bin), and adding the reconstruction back to
`detrend(x)` reproduces `x` exactly (round-trip). -/
theorem detrend_roundtrip (bins : List ℕ) (x t : List ℚ)
    (hb : bins.length = t.length) (hx : x.length = t.length) :
    detrend bins x t
      = List.zipWith (fun a b => a - b) x
          (from_trendGetview (climtrendCoefs bins t x) bins t) ∧
    List.zipWith (fun a b => a + b) (detrend bins x t)
      (from_trendGetview (climtrendCoefs bins t x) bins t) = x := by
  refine ⟨rfl, ?_⟩
  apply zipWith_sub_add
  rw [from_trendGetview, List.length_map, List.length_zip, hb, min_self, hx]

/-- C6 witness: the round-trip at a concrete two-year series with one
climatological bin per calendar position. -/
theorem detrend_roundtrip_witness :
    detrend [0, 1, 0, 1] [1, 2, 4, 3] [0, 10, 20, 30]
      = List.zipWith (fun a b => a - b) [1, 2, 4, 3]
          (from_trendGetview
            (climtrendCoefs [0, 1, 0, 1] [0, 10, 20, 30] [1, 2, 4, 3])
            [0, 1, 0, 1] [0, 10, 20, 30]) ∧
    List.zipWith (fun a b => a + b)
      (detrend [0, 1, 0, 1] [1, 2, 4, 3] [0, 10, 20, 30])
      (from_trendGetview
        (climtrendCoefs [0, 1, 0, 1] [0, 10, 20, 30] [1, 2, 4, 3])
        [0, 1, 0, 1] [0, 10, 20, 30]) = [1, 2, 4, 3] :=
  detrend_roundtrip [0, 1, 0, 1] [1, 2, 4, 3] [0, 10, 20, 30] rfl rfl

/-- Lemma: linear data has the length of its time axis. -/
theorem linData_length (a b : ℚ) (t : List ℚ) :
    (linData a b t).length = t.length := by
  simp [linData]

/-- Lemma: the sum of linear data `a*s + b` over the times `t`. -/
theorem linData_sum (a b : ℚ) (t : List ℚ) :
    (linData a b t).sum = a * t.sum + b * (t.length : ℚ) := by
  induction t with
  | nil => simp [linData]
  | cons s ss ih =>
      rw [linData, List.map_cons, List.sum_cons]
      rw [show (List.map (fun s => a * s + b) ss) = linData a b ss from rfl, ih]
      rw [List.sum_cons, List.length_cons]
      push_cast
      ring

/-- Lemma: the sum of the elementwise product of linear data with its own
times. -/
theorem zip_mul_linData_sum (a b : ℚ) (t : List ℚ) :
    (List.zipWith (fun p q => p * q) (linData a b t) t).sum
      = a * (t.map (fun v => v ^ 2)).sum + b * t.sum := by
  induction t with
  | nil => simp [linData]
  | cons s ss ih =>
      rw [linData, List.map_cons]
      rw [show (List.map (fun s => a * s + b) ss) = linData a b ss from rfl]
      rw [List.zipWith_cons_cons, List.sum_cons, ih, List.map_cons,
        List.sum_cons, List.sum_cons]
      ring

/-- Lemma: the evenly spaced time axis has `n` samples. -/
theorem evenTimes_length (n : ℕ) (t0 d : ℚ) :
    (evenTimes n t0 d).length = n := by
  simp [evenTimes]

/-- Lemma: Gauss sum of the evenly spaced times. -/
theorem evenTimes_sum (n : ℕ) (t0 d : ℚ) :
    (evenTimes n t0 d).sum
      = (n : ℚ) * t0 + d * ((n : ℚ) * ((n : ℚ) - 1) / 2) := by
  induction n with
  | zero => simp [evenTimes]
  | succ m ih =>
      rw [evenTimes, List.range_succ, List.map_append, List.sum_append]
      rw [show (List.map (fun (i : ℕ) => t0 + d * (i : ℚ)) (List.range m))
          = evenTimes m t0 d from rfl, ih]
      simp only [List.map_cons, List.map_nil, List.sum_cons, List.sum_nil]
      push_cast
      ring

/-- Lemma: sum of squares of the evenly spaced times. -/
theorem evenTimes_sq_sum (n : ℕ) (t0 d : ℚ) :
    ((evenTimes n t0 d).map (fun v => v ^ 2)).sum
      = (n : ℚ) * t0 ^ 2 + 2 * t0 * d * ((n : ℚ) * ((n : ℚ) - 1) / 2)
        + d ^ 2 * ((n : ℚ) * ((n : ℚ) - 1) * (2 * (n : ℚ) - 1) / 6) := by
  induction n with
  | zero => simp [evenTimes]
  | succ m ih =>
      rw [evenTimes, List.range_succ, List.map_append, List.map_append,
        List.sum_append]
      rw [show (List.map (fun (i : ℕ) => t0 + d * (i : ℚ)) (List.range m))
          = evenTimes m t0 d from rfl, ih]
      simp only [List.map_cons, List.map_nil, List.sum_cons, List.sum_nil]
      push_cast
      ring

/-- Lemma: the algebraic core of least-squares recovery — when the data means
satisfy the exact linear relations of `x = a·t + b`, the two stored trend
coefficients finalize to the intercept `b` and the slope `a`. -/
theorem trend_generic (X X2 F XF a b : ℚ)
    (hF : F = a * X + b) (hXF : XF = a * X2 + b * X)
    (hD : X2 - X ^ 2 ≠ 0) :
    (X2 * F - X * XF) / (X2 - X ^ 2) = b ∧
    (XF - X * F) / (X2 - X ^ 2) = a := by
  subst hF hXF
  constructor <;> rw [div_eq_iff hD] <;> ring

/-- Lemma: the evenly spaced time axis with `n ≥ 2` samples and nonzero
spacing has nonzero variance, so the trend denominator is nonzero. -/
theorem evenTimes_D_ne (n : ℕ) (t0 d : ℚ) (hn : 2 ≤ n) (hd : d ≠ 0) :
    ((evenTimes n t0 d).map (fun v => v ^ 2)).sum / (n : ℚ)
      - ((evenTimes n t0 d).sum / (n : ℚ)) ^ 2 ≠ 0 := by
  have hN : (2 : ℚ) ≤ (n : ℚ) := by exact_mod_cast hn
  have hN0 : (n : ℚ) ≠ 0 := by
    intro h0
    rw [h0] at hN
    norm_num at hN
  have key : ((evenTimes n t0 d).map (fun v => v ^ 2)).sum / (n : ℚ)
      - ((evenTimes n t0 d).sum / (n : ℚ)) ^ 2
      = d ^ 2 * ((n : ℚ) ^ 2 - 1) / 12 := by
    rw [evenTimes_sum, evenTimes_sq_sum]
    field_simp
    ring
  rw [key]
  have h1 : (0 : ℚ) < d ^ 2 := by positivity
  have h2 : (0 : ℚ) < (n : ℚ) ^ 2 - 1 := by nlinarith
  exact ne_of_gt (div_pos (mul_pos h1 h2) (by norm_num))

/-- C1: `climtrend` computes per output position the closed-form
least-squares coefficients — slope `(E[tx]−E[t]E[x])/(E[t²]−E[t]²)` and
intercept `(E[t²]E[x]−E[t]E[tx])/(E[t²]−E[t]²)` with `t` the elapsed seconds —
storing the intercept at coefficient index 0 and the slope at index 1; for
data `y = 3x + 7` sampled at `n ≥ 2` evenly spaced times with spacing
`d ≠ 0` it recovers intercept 7 and slope 3 exactly. -/
theorem climtrend_leastsquares (t x : List ℚ) (n : ℕ) (t0 d : ℚ)
    (hn : 2 ≤ n) (hd : d ≠ 0) :
    trendGetview t x
      = ((specMean (t.map (fun v => v ^ 2)) * specMean x
            - specMean t * specMean (List.zipWith (fun a b => a * b) x t))
          / (specMean (t.map (fun v => v ^ 2)) - specMean t ^ 2),
         (specMean (List.zipWith (fun a b => a * b) x t)
            - specMean t * specMean x)
          / (specMean (t.map (fun v => v ^ 2)) - specMean t ^ 2)) ∧
    trendGetview (evenTimes n t0 d) (linData 3 7 (evenTimes n t0 d))
      = (7, 3) := by
  constructor
  · rfl
  · have hN : (2 : ℚ) ≤ (n : ℚ) := by exact_mod_cast hn
    have hN0 : (n : ℚ) ≠ 0 := by
      intro h0
      rw [h0] at hN
      norm_num at hN
    have hTlen : (evenTimes n t0 d).length = n := evenTimes_length n t0 d
    have hXlen : (linData 3 7 (evenTimes n t0 d)).length = n := by
      rw [linData_length, hTlen]
    have hZlen : (List.zipWith (fun a b => a * b)
        (linData 3 7 (evenTimes n t0 d)) (evenTimes n t0 d)).length = n := by
      rw [List.length_zipWith, hXlen, hTlen, min_self]
    have hMlen : ((evenTimes n t0 d).map (fun v => v ^ 2)).length = n := by
      rw [List.length_map, hTlen]
    have hF : (linData 3 7 (evenTimes n t0 d)).sum / (n : ℚ)
        = 3 * ((evenTimes n t0 d).sum / (n : ℚ)) + 7 := by
      rw [linData_sum, hTlen]
      field_simp
    have hXF : (List.zipWith (fun a b => a * b)
          (linData 3 7 (evenTimes n t0 d)) (evenTimes n t0 d)).sum / (n : ℚ)
        = 3 * (((evenTimes n t0 d).map (fun v => v ^ 2)).sum / (n : ℚ))
          + 7 * ((evenTimes n t0 d).sum / (n : ℚ)) := by
      rw [zip_mul_linData_sum]
      field_simp
    have hD := evenTimes_D_ne n t0 d hn hd
    have hgen := trend_generic ((evenTimes n t0 d).sum / (n : ℚ))
      (((evenTimes n t0 d).map (fun v => v ^ 2)).sum / (n : ℚ))
      ((linData 3 7 (evenTimes n t0 d)).sum / (n : ℚ))
      ((List.zipWith (fun a b => a * b)
        (linData 3 7 (evenTimes n t0 d)) (evenTimes n t0 d)).sum / (n : ℚ))
      3 7 hF hXF hD
    simp only [trendGetview, hTlen, hXlen, hZlen, hMlen]
    rw [Prod.mk.injEq]
    exact ⟨hgen.1, hgen.2⟩

/-- C1 witness: three evenly spaced samples of `y = 3x + 7` recover intercept
7 and slope 3 exactly. -/
theorem climtrend_leastsquares_witness :
    trendGetview (evenTimes 3 0 1) (linData 3 7 (evenTimes 3 0 1))
      = (7, 3) :=
  (climtrend_leastsquares [0, 1] [7, 10] 3 0 1 (by norm_num)
    (by norm_num)).2

end PyGeode
